import Mathlib

/-!
Verification development for the `ics.py` calendaring library
(object model files: `ics/event.py`, `ics/todo.py`, `ics/todolist.py`,
`ics/icalendar.py`).

Shallow embedding conventions:
* instants (`arrow.Arrow` values) are modelled as `Int` (seconds on a
  timeline); an `arrow` object is always truthy;
* `datetime.timedelta` durations are modelled as `Int` (seconds); a
  timedelta is truthy iff it is non-zero;
* `None` is `Option.none`; fallible Python code returns `Except PyErr`;
* comparisons involving `None` raise `TypeError` (Python 3 semantics);
* attribute access on a never-assigned instance attribute raises
  `AttributeError`.
-/

namespace ICS

/-- Kinds of Python exceptions raised by the modelled code. -/
inductive PyErr where
  | valueError
  | typeError
  | attributeError
  | nameError
  | notImplementedError
  | schemaError
  deriving Repr, DecidableEq

abbrev Instant := Int

abbrev PyRes (α : Type) := Except PyErr α

/-- Truthiness of an optional `datetime.timedelta`: `None` and the zero
timedelta are falsy, every other timedelta is truthy. -/
def tdTruthy : Option Int → Bool
  | none => false
  | some d => d != 0

/-- Python `a < b` on optional instants: comparing with `None` raises
`TypeError` (Python 3). -/
def ltV : Option Instant → Option Instant → PyRes Bool
  | some a, some b => .ok (decide (a < b))
  | _, _ => .error .typeError

/-- Python `a > b` on optional instants. -/
def gtV : Option Instant → Option Instant → PyRes Bool
  | some a, some b => .ok (decide (a > b))
  | _, _ => .error .typeError

/-- Python `a <= b` on optional instants. -/
def leV : Option Instant → Option Instant → PyRes Bool
  | some a, some b => .ok (decide (a ≤ b))
  | _, _ => .error .typeError

/-- The two begin precisions used by `Event` (`_begin_precision`). -/
inductive Precision where
  | second
  | day
  deriving Repr, DecidableEq

/-- One unit of a precision, in seconds: `replace(seconds=+1)` or
`replace(days=+1)` on the begin instant. -/
def precUnit : Precision → Int
  | .second => 1
  | .day => 86400

/-- `Arrow.floor('day')`: truncate an instant to the start of its day. -/
def dayFloor (b : Instant) : Instant := (Int.fdiv b 86400) * 86400

/-- The mutable temporal state of an `ics.event.Event`:
`_begin`, `_begin_precision`, `_end_time`, `_duration` (plus the `uid`
identity).  Other fields (name, description, location, created) do not
interact with the temporal logic. -/
structure Event where
  uid : String
  beginTime : Option Instant
  beginPrec : Option Precision
  endTime : Option Instant
  dur : Option Int
  deriving Repr, DecidableEq

/-- `Event.begin` setter: raises `ValueError` when the new begin is
truthy, an end time is stored and the new begin exceeds it; otherwise
stores the value and records precision `'second'`. -/
def beginSet (s : Event) (v : Option Instant) : PyRes Event :=
  match v, s.endTime with
  | some x, some e =>
      if x > e then .error .valueError
      else .ok { s with beginTime := some x, beginPrec := some .second }
  | _, _ => .ok { s with beginTime := v, beginPrec := some .second }

/-- `Event.end` setter: for a truthy value, raises `ValueError` when the
new end precedes the stored begin (`value < self._begin`; with no begin
stored the comparison with `None` raises `TypeError`); on success stores
the end and clears the stored duration.  Setting `None` just clears the
stored end. -/
def endSet (s : Event) (v : Option Instant) : PyRes Event :=
  match v with
  | some x =>
      match s.beginTime with
      | some b =>
          if x < b then .error .valueError
          else .ok { s with endTime := some x, dur := none }
      | none => .error .typeError
  | none => .ok { s with endTime := none }

/-- `Event.duration` setter: never validates; clears the stored end only
when the new duration is truthy (non-`None` and non-zero), then stores
the duration. -/
def durationSet (s : Event) (v : Option Int) : Event :=
  let s' := if tdTruthy v then { s with endTime := none } else s
  { s' with dur := v }

/-- `Event.make_all_day()`: floors the begin to day precision and clears
any stored end and duration; with no begin stored, `None.floor('day')`
raises `AttributeError`. -/
def makeAllDay (s : Event) : PyRes Event :=
  match s.beginTime with
  | none => .error .attributeError
  | some b =>
      .ok { s with beginPrec := some .day, beginTime := some (dayFloor b),
                   dur := none, endTime := none }

/-- `Event.end` getter: a truthy stored duration yields `begin +
duration`; otherwise a stored end is returned; otherwise, with a begin
stored, `begin` advanced by one unit of the recorded precision; else
`None`. -/
def endGet (s : Event) : PyRes (Option Instant) :=
  if tdTruthy s.dur then
    match s.beginTime, s.dur with
    | some b, some d => .ok (some (b + d))
    | _, _ => .error .typeError
  else if s.endTime.isSome then .ok s.endTime
  else
    match s.beginTime with
    | some b =>
        match s.beginPrec with
        | some p => .ok (some (b + precUnit p))
        | none => .error .typeError
    | none => .ok none

/-- `Event.duration` getter: a truthy stored duration is returned
directly; otherwise, when the `end` property is truthy, the derived
`end - begin` is returned; else `None`. -/
def durationGet (s : Event) : PyRes (Option Int) := do
  if tdTruthy s.dur then .ok s.dur
  else
    let e ← endGet s
    match e with
    | some ev =>
        match s.beginTime with
        | some b => .ok (some (ev - b))
        | none => .error .typeError
    | none => .ok none

/-- `Event.has_end()`: a stored end or a truthy stored duration. -/
def hasEnd (s : Event) : Bool := s.endTime.isSome || tdTruthy s.dur

/-- `Event.all_day`: day precision recorded and no end/duration stored. -/
def allDay (s : Event) : Bool := (s.beginPrec == some .day) && !(hasEnd s)

/-- `Event.__init__`: initialises all temporal fields to `None`, runs the
begin setter, rejects a simultaneous truthy duration and end, then runs
the end setter or the duration setter. -/
def eventInit (uid : String) (b e : Option Instant) (d : Option Int) :
    PyRes Event := do
  let s0 : Event :=
    { uid, beginTime := none, beginPrec := none, endTime := none, dur := none }
  let s1 ← beginSet s0 b
  if tdTruthy d && e.isSome then .error .valueError
  else if e.isSome then endSet s1 e
  else if tdTruthy d then .ok (durationSet s1 d)
  else .ok s1

/-- The states an `Event` can reach through its public constructor, the
`begin`/`end`/`duration` setters and `make_all_day` (the mutation surface
of `ics/event.py`). -/
inductive EventReachable : Event → Prop where
  | init (uid : String) (b e : Option Instant) (d : Option Int) (s : Event) :
      eventInit uid b e d = .ok s → EventReachable s
  | stepBegin (s : Event) (v : Option Instant) (s' : Event) :
      EventReachable s → beginSet s v = .ok s' → EventReachable s'
  | stepEnd (s : Event) (v : Option Instant) (s' : Event) :
      EventReachable s → endSet s v = .ok s' → EventReachable s'
  | stepDur (s : Event) (v : Option Int) :
      EventReachable s → EventReachable (durationSet s v)
  | stepAllDay (s s' : Event) :
      EventReachable s → makeAllDay s = .ok s' → EventReachable s'

/-- The state invariant maintained by the `Event` mutators: a stored
begin always has a recorded precision; a stored begin never exceeds a
stored end; a stored end and a truthy stored duration never coexist. -/
def EventInv (s : Event) : Prop :=
  (s.beginTime.isSome → s.beginPrec.isSome)
  ∧ (∀ b e, s.beginTime = some b → s.endTime = some e → b ≤ e)
  ∧ ¬(s.endTime.isSome ∧ tdTruthy s.dur = true)

@[simp] theorem tdTruthy_none : tdTruthy none = false := rfl

@[simp] theorem tdTruthy_some (d : Int) : tdTruthy (some d) = (d != 0) := rfl

theorem eventInit_inv {uid : String} {b e : Option Instant} {d : Option Int}
    {s : Event} (h : eventInit uid b e d = .ok s) : EventInv s := by
  unfold eventInit at h
  simp only [beginSet, bind, Except.bind] at h
  split at h
  · exact absurd h (by simp)
  · split at h
    · -- end branch
      rename_i hde hes
      cases e with
      | none => simp at hes
      | some x =>
          cases b with
          | none => simp [endSet] at h
          | some bb =>
              simp only [endSet] at h
              split at h
              · exact absurd h (by simp)
              · rename_i hlt
                simp only [Except.ok.injEq] at h
                subst h
                refine ⟨by simp, ?_, by simp⟩
                intro b' e' hb' he'
                simp only [Option.some.injEq] at hb' he'
                subst hb'; subst he'
                exact le_of_not_lt hlt
    · split at h
      · -- duration branch
        rename_i hde hes hd
        simp only [Except.ok.injEq] at h
        subst h
        simp only [durationSet, hd, if_true]
        exact ⟨by simp, by simp, by simp⟩
      · -- plain branch
        simp only [Except.ok.injEq] at h
        subst h
        exact ⟨by simp, by simp, by simp⟩

theorem beginSet_inv {s : Event} {v : Option Instant} {s' : Event}
    (hs : EventInv s) (h : beginSet s v = .ok s') : EventInv s' := by
  obtain ⟨u, bT, bP, eT, dr⟩ := s
  obtain ⟨h1, h2, h3⟩ := hs
  cases v with
  | none =>
      cases eT with
      | none =>
          simp only [beginSet, Except.ok.injEq] at h
          subst h
          exact ⟨by simp, by simp, by simpa using h3⟩
      | some e0 =>
          simp only [beginSet, Except.ok.injEq] at h
          subst h
          exact ⟨by simp, by simp, by simpa using h3⟩
  | some x =>
      cases eT with
      | none =>
          simp only [beginSet, Except.ok.injEq] at h
          subst h
          exact ⟨by simp, by simp, by simpa using h3⟩
      | some e0 =>
          simp only [beginSet] at h
          split at h
          · exact absurd h (by simp)
          · rename_i hgt
            simp only [Except.ok.injEq] at h
            subst h
            refine ⟨by simp, ?_, by simpa using h3⟩
            intro b' e' hb' he'
            simp only [Option.some.injEq] at hb' he'
            subst hb'; subst he'
            exact le_of_not_lt hgt

theorem endSet_inv {s : Event} {v : Option Instant} {s' : Event}
    (hs : EventInv s) (h : endSet s v = .ok s') : EventInv s' := by
  obtain ⟨u, bT, bP, eT, dr⟩ := s
  obtain ⟨h1, h2, h3⟩ := hs
  cases v with
  | none =>
      simp only [endSet, Except.ok.injEq] at h
      subst h
      exact ⟨by simpa using h1, by simp, by simp⟩
  | some x =>
      cases bT with
      | none => simp [endSet] at h
      | some bb =>
          simp only [endSet] at h
          split at h
          · exact absurd h (by simp)
          · rename_i hlt
            simp only [Except.ok.injEq] at h
            subst h
            refine ⟨by simpa using h1, ?_, by simp⟩
            intro b' e' hb' he'
            simp only [Option.some.injEq] at hb' he'
            subst hb'; subst he'
            exact le_of_not_lt hlt

theorem durationSet_inv {s : Event} {v : Option Int}
    (hs : EventInv s) : EventInv (durationSet s v) := by
  obtain ⟨u, bT, bP, eT, dr⟩ := s
  obtain ⟨h1, h2, h3⟩ := hs
  by_cases hv : tdTruthy v = true
  · simp only [durationSet, hv, if_true]
    exact ⟨by simpa using h1, by simp, by simp⟩
  · simp only [durationSet, hv, if_false]
    refine ⟨by simpa using h1, by simpa using h2, ?_⟩
    intro hc
    exact hv hc.2

theorem makeAllDay_inv {s s' : Event}
    (_hs : EventInv s) (h : makeAllDay s = .ok s') : EventInv s' := by
  obtain ⟨u, bT, bP, eT, dr⟩ := s
  cases bT with
  | none => simp [makeAllDay] at h
  | some bb =>
      simp only [makeAllDay, Except.ok.injEq] at h
      subst h
      exact ⟨by simp, by simp, by simp⟩

/-- Every reachable `Event` state satisfies the state invariant. -/
theorem eventReachable_inv {s : Event} (h : EventReachable s) : EventInv s := by
  induction h with
  | init uid b e d s hinit => exact eventInit_inv hinit
  | stepBegin s v s' _ hstep ih => exact beginSet_inv ih hstep
  | stepEnd s v s' _ hstep ih => exact endSet_inv ih hstep
  | stepDur s v _ ih => exact durationSet_inv ih
  | stepAllDay s s' _ hstep ih => exact makeAllDay_inv ih hstep

instance {ε α : Type} [DecidableEq ε] [DecidableEq α] :
    DecidableEq (Except ε α) := fun a b =>
  match a, b with
  | .ok x, .ok y =>
      if h : x = y then .isTrue (by rw [h])
      else .isFalse (fun hh => h (by injection hh))
  | .error x, .error y =>
      if h : x = y then .isTrue (by rw [h])
      else .isFalse (fun hh => h (by injection hh))
  | .ok _, .error _ => .isFalse (fun hh => Except.noConfusion hh)
  | .error _, .ok _ => .isFalse (fun hh => Except.noConfusion hh)

/-- C1 counterexample.  The claim says that after a successful assignment
of a non-null end via the end setter, reading the `duration` property
yields absent.  On the code, the `duration` getter derives `end - begin`
whenever an end is defined: for the event with `begin = 0`, after
`end := 10` the duration property reads `10`, not absent. -/
theorem c1_counterexample :
    eventInit "u" (some 0) none none
      = .ok ⟨"u", some 0, some Precision.second, none, none⟩
    ∧ endSet ⟨"u", some 0, some Precision.second, none, none⟩ (some 10)
      = .ok ⟨"u", some 0, some Precision.second, some 10, none⟩
    ∧ durationGet ⟨"u", some 0, some Precision.second, some 10, none⟩
      = .ok (some 10)
    ∧ (Except.ok (some (10 : Int)) : PyRes (Option Int)) ≠ .ok none :=
  ⟨by decide, by decide, by decide, by decide⟩

/-- C1 (amended): after a successful non-null assignment through the end
setter the STORED duration is cleared (the duration property then reads
the derived `end - begin`); assigning a truthy (non-zero) duration clears
the stored end; and no reachable state holds both a stored end and a
truthy stored duration (a stored zero duration may coexist with a stored
end, but reads as absent). -/
theorem c1_mutual_exclusion_amended :
    (∀ (s s' : Event) (x : Instant), endSet s (some x) = .ok s' → s'.dur = none)
    ∧ (∀ (s s' : Event) (x b : Instant), endSet s (some x) = .ok s' →
        s.beginTime = some b → durationGet s' = .ok (some (x - b)))
    ∧ (∀ (s : Event) (d : Int), d ≠ 0 → (durationSet s (some d)).endTime = none)
    ∧ (∀ s : Event, EventReachable s →
        ¬(s.endTime.isSome = true ∧ tdTruthy s.dur = true)) := by
  refine ⟨?_, ?_, ?_, ?_⟩
  · intro s s' x h
    obtain ⟨u, bT, bP, eT, dr⟩ := s
    cases bT with
    | none => simp [endSet] at h
    | some bb =>
        simp only [endSet] at h
        split at h
        · exact absurd h (by simp)
        · simp only [Except.ok.injEq] at h
          subst h
          rfl
  · intro s s' x b h hb
    obtain ⟨u, bT, bP, eT, dr⟩ := s
    simp only [] at hb
    subst hb
    simp only [endSet] at h
    split at h
    · exact absurd h (by simp)
    · simp only [Except.ok.injEq] at h
      subst h
      simp [durationGet, endGet, bind, Except.bind]
  · intro s d hd
    simp [durationSet, tdTruthy, hd]
  · intro s h
    exact (eventReachable_inv h).2.2

theorem c1_mutual_exclusion_amended_witness :
    durationGet ⟨"u", some 0, some Precision.second, some 10, none⟩
      = .ok (some 10) :=
  c1_mutual_exclusion_amended.2.1
    ⟨"u", some 0, some Precision.second, none, none⟩
    ⟨"u", some 0, some Precision.second, some 10, none⟩
    10 0 (by decide) rfl

/-- C4 counterexample.  The claim says `begin ≤ effective end` in every
reachable state.  The duration setter performs no ordering validation, so
constructing an event with `begin = 0` and duration `-5` seconds is
accepted and yields effective end `-5 < 0 = begin`. -/
theorem c4_counterexample :
    eventInit "u" (some 0) none (some (-5))
      = .ok ⟨"u", some 0, some Precision.second, none, some (-5)⟩
    ∧ endGet ⟨"u", some 0, some Precision.second, none, some (-5)⟩
      = .ok (some (-5))
    ∧ ¬((0 : Int) ≤ -5) :=
  ⟨by decide, by decide, by decide⟩

/-- C4 (amended): in every reachable state whose stored duration is not
negative, a defined begin implies the effective end is defined and is not
below it; the begin setter rejects exactly the values above a stored end,
and the end setter rejects exactly the values below the stored begin
(both before mutating anything — in this embedding a failing setter
returns only the error). The duration setter performs no validation,
which is the sole source of ordering violations. -/
theorem c4_ordering_amended :
    (∀ s : Event, EventReachable s → ∀ b : Instant, s.beginTime = some b →
        (∀ d : Int, s.dur = some d → 0 ≤ d) →
        ∃ e : Instant, endGet s = .ok (some e) ∧ b ≤ e)
    ∧ (∀ (s : Event) (x e0 : Instant), s.endTime = some e0 →
        (beginSet s (some x) = .error .valueError ↔ e0 < x))
    ∧ (∀ (s : Event) (x b0 : Instant), s.beginTime = some b0 →
        (endSet s (some x) = .error .valueError ↔ x < b0)) := by
  refine ⟨?_, ?_, ?_⟩
  · intro s hr b hb hd
    obtain ⟨i1, i2, i3⟩ := eventReachable_inv hr
    cases hdur : s.dur with
    | some d =>
        have hd0 : 0 ≤ d := hd d hdur
        by_cases hz : d = 0
        · -- falsy stored duration: the getter ignores it
          subst hz
          cases het : s.endTime with
          | some e0 =>
              refine ⟨e0, ?_, i2 b e0 hb het⟩
              simp [endGet, hdur, het, hb]
          | none =>
              cases hp : s.beginPrec with
              | none =>
                  exact absurd (i1 (by simp [hb])) (by simp [hp])
              | some p =>
                  refine ⟨b + precUnit p, ?_, ?_⟩
                  · simp [endGet, hdur, het, hb, hp]
                  · have : (0 : Int) ≤ precUnit p := by cases p <;> decide
                    linarith
        · refine ⟨b + d, ?_, ?_⟩
          · simp [endGet, hdur, hb, tdTruthy, hz]
          · linarith
    | none =>
        cases het : s.endTime with
        | some e0 =>
            refine ⟨e0, ?_, i2 b e0 hb het⟩
            simp [endGet, hdur, het, hb]
        | none =>
            cases hp : s.beginPrec with
            | none =>
                exact absurd (i1 (by simp [hb])) (by simp [hp])
            | some p =>
                refine ⟨b + precUnit p, ?_, ?_⟩
                · simp [endGet, hdur, het, hb, hp]
                · have : (0 : Int) ≤ precUnit p := by cases p <;> decide
                  linarith
  · intro s x e0 he
    obtain ⟨u, bT, bP, eT, dr⟩ := s
    simp only [] at he
    subst he
    by_cases hx : e0 < x
    · simp [beginSet, hx]
    · simp [beginSet, hx]
  · intro s x b0 hb
    obtain ⟨u, bT, bP, eT, dr⟩ := s
    simp only [] at hb
    subst hb
    by_cases hx : x < b0
    · simp [endSet, hx]
    · simp [endSet, hx]

theorem c4_ordering_amended_witness :
    ∃ e : Instant,
      endGet ⟨"u", some 5, some Precision.second, none, none⟩ = .ok (some e)
      ∧ 5 ≤ e :=
  c4_ordering_amended.1 ⟨"u", some 5, some Precision.second, none, none⟩
    (EventReachable.init "u" (some 5) none none _ (by decide))
    5 rfl (fun d hd => by cases hd)

/-- C8 (confirmed): with a begin stored and neither a stored end nor a
stored duration, the end property returns begin advanced by one unit of
the recorded precision; the scenario event with
`begin = 2024-01-01T10:00:00` (epoch second `1704103200`) constructed
with no end/duration gets precision `'second'`, effective end
`1704103201` (= 10:00:01) and `all_day = false`. -/
theorem c8_default_end_confirmed :
    (∀ (s : Event) (b : Instant) (p : Precision),
        s.beginTime = some b → s.beginPrec = some p → s.endTime = none →
        s.dur = none → endGet s = .ok (some (b + precUnit p)))
    ∧ eventInit "u" (some 1704103200) none none
        = .ok ⟨"u", some 1704103200, some Precision.second, none, none⟩
    ∧ endGet ⟨"u", some 1704103200, some Precision.second, none, none⟩
        = .ok (some 1704103201)
    ∧ allDay ⟨"u", some 1704103200, some Precision.second, none, none⟩
        = false := by
  refine ⟨?_, by decide, by decide, by decide⟩
  intro s b p hb hp he hd
  obtain ⟨u, bT, bP, eT, dr⟩ := s
  simp only [] at hb hp he hd
  subst hb; subst hp; subst he; subst hd
  simp [endGet]

theorem c8_default_end_confirmed_witness :
    endGet ⟨"u", some 1704103200, some Precision.second, none, none⟩
      = .ok (some (1704103200 + precUnit Precision.second)) :=
  c8_default_end_confirmed.1 ⟨"u", some 1704103200, some Precision.second, none, none⟩
    1704103200 Precision.second rfl rfl rfl rfl

/-! ### Todo (`ics/todo.py`) -/

/-- A dynamically typed Python value as it flows through the `percent`
machinery: `None`, an integer, or an `arrow` instant.  Python equality
between values of different kinds is `False` (`Arrow.__eq__` returns
`False` for a non-`Arrow`/non-`datetime` operand, `int.__eq__` for a
non-number), which the derived structural equality mirrors. -/
inductive PyVal where
  | vnone
  | vint (n : Int)
  | vinstant (t : Instant)
  deriving Repr, DecidableEq

/-- Python truthiness for `PyVal`: `None` and `0` are falsy; every
instant is truthy. -/
def pyTruthy : PyVal → Bool
  | .vnone => false
  | .vint n => n != 0
  | .vinstant _ => true

/-- Modelled from the spec: `utils.get_arrow` (`src/ics/utils.py` is not
in the corpus).  The spec (§9) describes it as the duck-typed
"anything date-like → instant" conversion; an already-typed instant
passes through, `None` passes through, and an integer is interpreted as
a timestamp instant (the behaviour of the underlying `arrow.get`). -/
def getArrowVal : PyVal → PyVal
  | .vnone => .vnone
  | .vint n => .vinstant n
  | .vinstant t => .vinstant t

/-- `Todo.percent` setter: `value = arrow.now() if not value else
get_arrow(value)` — a falsy percent becomes the current instant and any
other value is converted to an instant. -/
def percentSet (now : Instant) (v : PyVal) : PyVal :=
  if !(pyTruthy v) then .vinstant now else getArrowVal v

/-- The observable state of an `ics.todo.Todo`.  `beginAttr` models the
`_begin` instance attribute: `Todo.__init__` never assigns it (the
assignment is commented out), so it starts absent (`none`); the `begin`
property getter reads it and raises `AttributeError` while it is absent.
`dur` is the `duration` attribute assigned by `__init__` (the class
defines no `duration` property). -/
structure Todo where
  uid : String
  name : Option String
  due : Option Instant
  dur : Option Int
  percent : PyVal
  categoriesRef : Option Nat
  unusedRef : Nat
  beginAttr : Option (Option Instant)
  deriving Repr, DecidableEq

/-- `Todo.__init__`: initialises `_due`/`_duration` to `None`, assigns
`percent` through its setter (which needs the current instant `now`),
leaves `_begin` unassigned, rejects a simultaneous truthy duration and
due, then stores the raw `due` or the duration. -/
def todoInit (now : Instant) (uid : String) (name : Option String)
    (due : Option Instant) (duration : Option Int) (percent : PyVal)
    (categoriesRef : Option Nat) (unusedRef : Nat) : PyRes Todo :=
  let t : Todo :=
    { uid, name, due := none, dur := none,
      percent := percentSet now percent, categoriesRef, unusedRef,
      beginAttr := none }
  if tdTruthy duration && due.isSome then .error .valueError
  else if due.isSome then .ok { t with due := due }
  else if tdTruthy duration then .ok { t with dur := duration }
  else .ok t

/-- `Todo.has_due()`: `bool(self._due)`. -/
def hasDue (t : Todo) : Bool := t.due.isSome

/-- `Todo.is_overdue()`: `self._due < arrow.now()` with no `None` guard;
with `due` unset the comparison with `None` raises `TypeError`. -/
def isOverdue (now : Instant) (t : Todo) : PyRes Bool := ltV t.due (some now)

/-- `Todo.percent` getter: returns the stored value when truthy, else
`None`. -/
def percentGet (t : Todo) : PyVal :=
  if pyTruthy t.percent then t.percent else .vnone

/-- `Todo.is_complete()`: `self.percent == 100`. -/
def isComplete (t : Todo) : Bool := percentGet t == .vint 100

/-- C6 (code bug).  The claim — and the constructor's own docstring
(`percent (int) (0-100)`) — says percent is a scalar integer and
`is_complete()` is true iff it equals `100`.  The `percent` setter is a
copy-paste of the `completed` setter: it maps a falsy value to
`arrow.now()` and any other value through `get_arrow`, so the stored
percent is always an instant, never the integer, and `is_complete()` is
always false.  Evaluated at the failing inputs `percent=100` and
`percent=0`. -/
theorem c6_percent_code_bug :
    (∀ t : Todo, todoInit 1000 "u" none none none (.vint 100) none 0 = .ok t →
        isComplete t = false ∧ percentGet t = .vinstant 100
        ∧ ∀ n : Int, percentGet t ≠ .vint n)
    ∧ (∀ t : Todo, todoInit 1000 "u" none none none (.vint 0) none 0 = .ok t →
        isComplete t = false ∧ percentGet t = .vinstant 1000) := by
  constructor
  · intro t h
    have ht : t = ⟨"u", none, none, none, .vinstant 100, none, 0, none⟩ := by
      simpa [todoInit, percentSet, pyTruthy, getArrowVal] using h.symm
    subst ht
    refine ⟨by decide, by decide, ?_⟩
    intro n
    simp [percentGet, pyTruthy]
  · intro t h
    have ht : t = ⟨"u", none, none, none, .vinstant 1000, none, 0, none⟩ := by
      simpa [todoInit, percentSet, pyTruthy, getArrowVal] using h.symm
    subst ht
    exact ⟨by decide, by decide⟩

theorem c6_percent_code_bug_witness :
    isComplete ⟨"u", none, none, none, .vinstant 100, none, 0, none⟩ = false :=
  (c6_percent_code_bug.1 _ (by decide)).1

/-- C7 (confirmed): `is_overdue()` returns true exactly when a due is
set and precedes the current time; with `due` unset, `has_due()` is
false and `is_overdue()` never reports the Todo as overdue (the unguarded
comparison `self._due < arrow.now()` raises `TypeError` instead of
returning a boolean). -/
theorem c7_overdue_confirmed :
    ∀ (t : Todo) (now : Instant),
      (isOverdue now t = .ok true ↔ ∃ d, t.due = some d ∧ d < now)
      ∧ (t.due = none →
          hasDue t = false ∧ isOverdue now t = .error .typeError
          ∧ isOverdue now t ≠ .ok true) := by
  intro t now
  constructor
  · constructor
    · intro h
      cases hd : t.due with
      | none => simp [isOverdue, ltV, hd] at h
      | some d =>
          refine ⟨d, rfl, ?_⟩
          simp [isOverdue, ltV, hd] at h
          exact h
    · rintro ⟨d, hd, hlt⟩
      simp [isOverdue, ltV, hd, hlt]
  · intro hd
    refine ⟨by simp [hasDue, hd], by simp [isOverdue, ltV, hd], ?_⟩
    simp [isOverdue, ltV, hd]

theorem c7_overdue_confirmed_witness :
    isOverdue 10 ⟨"u", none, some 5, none, .vinstant 0, none, 0, none⟩
      = .ok true :=
  (c7_overdue_confirmed ⟨"u", none, some 5, none, .vinstant 0, none, 0, none⟩
    10).1.mpr ⟨5, rfl, by decide⟩

/-! ### TodoList range queries (`ics/todolist.py`, `__getitem__` and the
convenience wrappers)

`TodoList.__getitem__`'s slice path is duck-typed: the filter conditions
read `x.begin` and `x.end` off whatever the list holds.  The embedding is
therefore parametric in the two accessors (`fb`, `fe`), instantiated
below both with plain interval items (total accessors) and with `Todo`
(whose `begin`/`end` lookups raise `AttributeError`). -/

/-- `list(filter(p, items))`: sequential evaluation, the first raised
exception aborts the whole call. -/
def filterE {α : Type} (p : α → PyRes Bool) : List α → PyRes (List α)
  | [] => .ok []
  | x :: xs => do
      let b ← p x
      let rest ← filterE p xs
      .ok (if b then x :: rest else rest)

/-- The admissible range-mode tokens. -/
def validSteps : List String := ["begin", "end", "both", "any", "inc"]

/-- Step-token resolution of `__getitem__`: an absent step defaults to
`'both'`; an invalid token raises `ValueError`. -/
def stepResolve (step : Option String) : PyRes String :=
  match step with
  | none => .ok "both"
  | some s => if s ∈ validSteps then .ok s else .error .valueError

/-- The special-slice path of `TodoList.__getitem__`: bounds already
converted (`get_arrow` is the identity on typed instants / `None`), then
the nested filter conditions exactly as the source builds them, with
Python's `and`/`or` short-circuit evaluation.  For step `'inc'`: with no
start bound the code returns `[]`; with a start bound but no stop bound
the line `condition2 = condition1` reads the never-assigned local
`condition1` and raises an unbound-local `NameError`; with both bounds it
filters with `x.begin < start and stop < x.end`. -/
def slRange {α : Type} (fb fe : α → PyRes (Option Instant))
    (items : List α) (start stop : Option Instant) (step : Option String) :
    PyRes (List α) := do
  let st ← stepResolve step
  if st = "inc" then
    match start, stop with
    | some b, some e =>
        filterE (fun x => do
          let xb ← fb x
          let c1 ← ltV xb (some b)
          if c1 then do
            let xe ← fe x
            ltV (some e) xe
          else .ok false) items
    | none, _ => .ok []
    | some _, none => .error .nameError
  else
    let cond1 : α → PyRes Bool := fun x =>
      match start with
      | none => .ok true
      | some b =>
          if st = "begin" then do
            let xb ← fb x
            gtV xb (some b)
          else if st = "end" then do
            let xe ← fe x
            gtV xe (some b)
          else if st = "any" then do
            let xb ← fb x
            let c ← gtV xb (some b)
            if c then .ok true else do
              let xe ← fe x
              gtV xe (some b)
          else do
            let xb ← fb x
            let c ← gtV xb (some b)
            if c then do
              let xe ← fe x
              gtV xe (some b)
            else .ok false
    let cond2 : α → PyRes Bool := fun x =>
      match stop with
      | none => cond1 x
      | some e =>
          if st = "begin" then do
            let c ← cond1 x
            if c then do
              let xb ← fb x
              ltV xb (some e)
            else .ok false
          else if st = "end" then do
            let c ← cond1 x
            if c then do
              let xe ← fe x
              ltV xe (some e)
            else .ok false
          else if st = "any" then do
            let c ← cond1 x
            if c then do
              let xb ← fb x
              let cb ← ltV xb (some e)
              if cb then .ok true else do
                let xe ← fe x
                ltV xe (some e)
            else .ok false
          else do
            let c ← cond1 x
            if c then do
              let xb ← fb x
              let cb ← ltV xb (some e)
              if cb then do
                let xe ← fe x
                ltV xe (some e)
              else .ok false
            else .ok false
    filterE cond2 items

/-- A duck-typed item with a working begin/end interval (the shape the
range-semantics examples presuppose), tagged for identification. -/
structure Interval where
  lo : Instant
  hi : Instant
  tag : String
  deriving Repr, DecidableEq

def itemBegin (i : Interval) : PyRes (Option Instant) := .ok (some i.lo)

def itemEnd (i : Interval) : PyRes (Option Instant) := .ok (some i.hi)

/-- `Todo.begin` property getter: returns `self._begin`; on a Todo as
built by `__init__` that attribute was never assigned (the assignment is
commented out), so the lookup raises `AttributeError`. -/
def todoGetBegin (t : Todo) : PyRes (Option Instant) :=
  match t.beginAttr with
  | none => .error .attributeError
  | some v => .ok v

/-- Attribute lookup `todo.end`: `Todo` defines no `end` property or
attribute at all, so it raises `AttributeError`. -/
def todoGetEnd (_ : Todo) : PyRes (Option Instant) := .error .attributeError

/-- `TodoList.at(instant)`: `for todo in self: if todo.begin <= instant
<= todo.end: ...` (chained comparison, left to right). -/
def tlAt (items : List Todo) (instant : Instant) : PyRes (List Todo) :=
  match items with
  | [] => .ok []
  | t :: ts => do
      let b ← todoGetBegin t
      let c1 ← leV b (some instant)
      let keep ←
        if c1 then do
          let e ← todoGetEnd t
          leV (some instant) e
        else pure false
      let rest ← tlAt ts instant
      .ok (if keep then t :: rest else rest)

/-- `TodoList.now()`: `at` on the current instant. -/
def tlNow (now : Instant) (items : List Todo) : PyRes (List Todo) :=
  tlAt items now

/-- `TodoList.today()` / the single-instant path of `__getitem__`: the
day containing `now` is used as a `'both'`-mode window (the span's upper
bound is the last second of the day; sub-second detail is irrelevant
here). -/
def tlToday (now : Instant) (items : List Todo) : PyRes (List Todo) :=
  slRange todoGetBegin todoGetEnd items (some (dayFloor now))
    (some (dayFloor now + 86399)) (some "both")

def uidMem (u : String) (l : List Todo) : Bool := l.any (fun t => t.uid == u)

/-- `list(set(a) | (set(b) & set(c)))` with `Todo.__hash__`/`__eq__`
keyed on `uid`.  CPython's set iteration order is unspecified; the model
fixes one order (members of `a` first).  No claim depends on the order:
every use below aborts earlier with an exception. -/
def setUnionInter (a b c : List Todo) : List Todo :=
  let bc := b.filter (fun t => uidMem t.uid c)
  a ++ bc.filter (fun t => !(uidMem t.uid a))

/-- `TodoList.concurrent(todo)`: evaluates `todo.begin` / `todo.end` to
build the three slices, then combines them. -/
def tlConcurrent (items : List Todo) (todo : Todo) : PyRes (List Todo) := do
  let b ← todoGetBegin todo
  let e ← todoGetEnd todo
  let a ← slRange todoGetBegin todoGetEnd items b e (some "any")
  let bb ← slRange todoGetBegin todoGetEnd items none b (some "begin")
  let cc ← slRange todoGetBegin todoGetEnd items e none (some "end")
  .ok (setUnionInter a bb cc)

theorem filterE_ok {α : Type} (p : α → PyRes Bool) (q : α → Bool)
    (hp : ∀ x, p x = .ok (q x)) :
    ∀ l : List α, filterE p l = .ok (l.filter q) := by
  intro l
  induction l with
  | nil => rfl
  | cons x xs ih =>
      simp [filterE, hp x, ih, bind, Except.bind, List.filter_cons]

/-- C2 counterexample.  The claim's `'begin'` window is half-open
`[start, stop)` and its `'inc'` example returns the `[2,5)` item for the
window `[2,3)`.  On the code both comparisons are strict: the `'begin'`
filter is `x.begin > start and x.begin < stop`, so the item with
`begin = 1` is excluded from the window `[1,3)`; and `'inc'` requires
`x.begin < start`, so the `[2,5)` item (begin equal to the window start)
is not returned — the query yields no items. -/
theorem c2_range_counterexample :
    slRange itemBegin itemEnd [⟨1, 3, "a"⟩, ⟨2, 5, "b"⟩, ⟨6, 8, "c"⟩]
        (some 2) (some 3) (some "inc") = .ok []
    ∧ (Except.ok ([] : List Interval) : PyRes (List Interval))
        ≠ .ok [⟨2, 5, "b"⟩]
    ∧ slRange itemBegin itemEnd [⟨1, 3, "a"⟩, ⟨2, 5, "b"⟩, ⟨6, 8, "c"⟩]
        (some 1) (some 3) (some "begin") = .ok [⟨2, 5, "b"⟩]
    ∧ (Except.ok [(⟨2, 5, "b"⟩ : Interval)] : PyRes (List Interval))
        ≠ .ok [⟨1, 3, "a"⟩, ⟨2, 5, "b"⟩] :=
  ⟨by decide, by decide, by decide, by decide⟩

/-- C2 (amended): mode `'begin'` with both bounds returns exactly the
items whose begin lies in the OPEN window `(start, stop)` (both
comparisons strict); an absent mode behaves as `'both'`; a token outside
the five admissible modes raises `ValueError`; for items `[1,3)`,
`[2,5)`, `[6,8)` the window `[0,4)` returns the first two in mode
`'any'` and only the first in mode `'both'`; and mode `'inc'` on the
window `[2,3)` returns no items (strict containment excludes the item
whose begin equals the window start). -/
theorem c2_range_amended :
    (∀ (items : List Interval) (s e : Instant),
        slRange itemBegin itemEnd items (some s) (some e) (some "begin")
          = .ok (items.filter (fun i => decide (s < i.lo) && decide (i.lo < e))))
    ∧ (∀ (items : List Interval) (s e : Option Instant),
        slRange itemBegin itemEnd items s e none
          = slRange itemBegin itemEnd items s e (some "both"))
    ∧ (∀ (items : List Interval) (s e : Option Instant) (tok : String),
        tok ∉ validSteps →
        slRange itemBegin itemEnd items s e (some tok) = .error .valueError)
    ∧ slRange itemBegin itemEnd [⟨1, 3, "a"⟩, ⟨2, 5, "b"⟩, ⟨6, 8, "c"⟩]
        (some 0) (some 4) (some "any") = .ok [⟨1, 3, "a"⟩, ⟨2, 5, "b"⟩]
    ∧ slRange itemBegin itemEnd [⟨1, 3, "a"⟩, ⟨2, 5, "b"⟩, ⟨6, 8, "c"⟩]
        (some 0) (some 4) (some "both") = .ok [⟨1, 3, "a"⟩]
    ∧ slRange itemBegin itemEnd [⟨1, 3, "a"⟩, ⟨2, 5, "b"⟩, ⟨6, 8, "c"⟩]
        (some 2) (some 3) (some "inc") = .ok [] := by
  refine ⟨?_, ?_, ?_, by decide, by decide, by decide⟩
  · intro items s e
    have hres : stepResolve (some "begin") = .ok "begin" := by decide
    simp only [slRange, hres, bind, Except.bind]
    simp only [reduceIte]
    apply filterE_ok
    intro x
    simp only [itemBegin, gtV, ltV, bind, Except.bind]
    by_cases hc : s < x.lo
    · simp [hc, gt_iff_lt]
    · simp [hc, gt_iff_lt]
  · intro items s e
    have h1 : stepResolve none = .ok "both" := rfl
    have h2 : stepResolve (some "both") = .ok "both" := by decide
    simp only [slRange, h1, h2]
  · intro items s e tok htok
    simp only [slRange, stepResolve, bind, Except.bind]
    rw [if_neg htok]

theorem c2_range_amended_witness :
    slRange itemBegin itemEnd ([] : List Interval) none none (some "foo")
      = .error .valueError :=
  c2_range_amended.2.2.1 [] none none "foo" (by decide)

/-- C3 (confirmed): a `Todo` as constructed by `__init__` has no
`_begin` attribute (the assignment in `__init__` is commented out), and
none has an `end` attribute, so on a non-empty `TodoList` of such todos
every operation that evaluates an item's begin — a range query with a
bound in mode `'begin'`, `'any'`, `'both'` or `'inc'` (with both
bounds), `at()`, `now()`, `today()` and `concurrent()` — raises
`AttributeError` instead of returning a result. -/
theorem c3_todo_begin_attribute_error :
    ∀ (l : List Todo) (t0 : Todo) (a b now : Instant),
      (∀ t ∈ l, t.beginAttr = none) → l ≠ [] → t0.beginAttr = none →
      slRange todoGetBegin todoGetEnd l (some a) none (some "begin")
          = .error .attributeError
      ∧ slRange todoGetBegin todoGetEnd l (some a) none (some "any")
          = .error .attributeError
      ∧ slRange todoGetBegin todoGetEnd l (some a) none (some "both")
          = .error .attributeError
      ∧ slRange todoGetBegin todoGetEnd l (some a) (some b) (some "inc")
          = .error .attributeError
      ∧ tlAt l now = .error .attributeError
      ∧ tlNow now l = .error .attributeError
      ∧ tlToday now l = .error .attributeError
      ∧ tlConcurrent l t0 = .error .attributeError := by
  intro l t0 a b now hall hne h0
  cases l with
  | nil => exact absurd rfl hne
  | cons t ts =>
      have ht : t.beginAttr = none := hall t (List.mem_cons_self t ts)
      have hb : todoGetBegin t = .error .attributeError := by
        simp [todoGetBegin, ht]
      have hb0 : todoGetBegin t0 = .error .attributeError := by
        simp [todoGetBegin, h0]
      have hsBegin : stepResolve (some "begin") = .ok "begin" := by decide
      have hsAny : stepResolve (some "any") = .ok "any" := by decide
      have hsBoth : stepResolve (some "both") = .ok "both" := by decide
      have hsInc : stepResolve (some "inc") = .ok "inc" := by decide
      refine ⟨?_, ?_, ?_, ?_, ?_, ?_, ?_, ?_⟩
      · simp [slRange, hsBegin, filterE, hb, bind, Except.bind]
      · simp [slRange, hsAny, filterE, hb, bind, Except.bind]
      · simp [slRange, hsBoth, filterE, hb, bind, Except.bind]
      · simp [slRange, hsInc, filterE, hb, bind, Except.bind]
      · simp [tlAt, hb, bind, Except.bind]
      · simp [tlNow, tlAt, hb, bind, Except.bind]
      · simp [tlToday, slRange, hsBoth, filterE, hb, bind, Except.bind]
      · simp [tlConcurrent, hb0, bind, Except.bind]

theorem c3_todo_begin_attribute_error_witness :
    tlAt [⟨"u", none, none, none, .vinstant 0, none, 0, none⟩] 3
      = .error .attributeError :=
  (c3_todo_begin_attribute_error
    [⟨"u", none, none, none, .vinstant 0, none, 0, none⟩]
    ⟨"u", none, none, none, .vinstant 0, none, 0, none⟩
    1 2 3 (by decide) (by decide) rfl).2.2.2.2.1

/-! ### TodoList concatenation (`TodoList.__add__` / `_remove_duplicates`)

`_remove_duplicates` walks the indices from the back (`for i in
reversed(range(len(self)))`), deleting `self[i]` when it is already in
the `seen` set and adding it otherwise; membership uses
`Todo.__eq__`/`__hash__`, both keyed on `uid` alone.  `rdGo` processes
the reversed list with the accumulated `seen` keys and the final result
is read back in original order. -/

def rdGo {α : Type} (key : α → String) : List α → List String → List α
  | [], _ => []
  | x :: xs, seen =>
      if key x ∈ seen then rdGo key xs seen
      else x :: rdGo key xs (key x :: seen)

/-- The `seen` set accumulated by the reversed-deletion walk. -/
def rdSeen {α : Type} (key : α → String) : List α → List String → List String
  | [], seen => seen
  | x :: xs, seen =>
      if key x ∈ seen then rdSeen key xs seen
      else rdSeen key xs (key x :: seen)

/-- `TodoList._remove_duplicates` on a plain list. -/
def removeDupsBy {α : Type} (key : α → String) (l : List α) : List α :=
  (rdGo key l.reverse []).reverse

/-- `TodoList.__add__`: list concatenation, re-wrap (all elements are
`Todo`s, so the type check passes), then in-place dedup. -/
def tlAdd (A B : List Todo) : List Todo :=
  removeDupsBy (fun t => t.uid) (A ++ B)

/-- Keep each element exactly when its key does not occur again later in
the list: the "last occurrence" sublist. -/
def keepLast {α : Type} (key : α → String) : List α → List α
  | [] => []
  | x :: xs =>
      if xs.any (fun y => key y == key x) then keepLast key xs
      else x :: keepLast key xs

/-- `keepLast` relative to an ambient set of already-seen keys. -/
def keepLastSeen {α : Type} (key : α → String) :
    List α → List String → List α
  | [], _ => []
  | x :: xs, seen =>
      if key x ∈ seen ∨ xs.any (fun y => key y == key x) = true then
        keepLastSeen key xs seen
      else x :: keepLastSeen key xs seen

theorem rdSeen_mem {α : Type} (key : α → String) :
    ∀ (l : List α) (seen : List String) (k : String),
      k ∈ rdSeen key l seen
        ↔ k ∈ seen ∨ l.any (fun z => key z == k) = true := by
  intro l
  induction l with
  | nil => intro seen k; simp [rdSeen]
  | cons x xs ih =>
      intro seen k
      by_cases hx : key x ∈ seen
      · simp only [rdSeen, hx, if_pos, eq_self_iff_true, if_true]
        rw [ih]
        simp only [List.any_cons, Bool.or_eq_true, beq_iff_eq]
        by_cases hk : key x = k
        · subst hk
          simp [hx]
        · simp [hk]
      · simp only [rdSeen, hx, if_neg, if_false]
        rw [ih]
        simp only [List.any_cons, Bool.or_eq_true, beq_iff_eq, List.mem_cons]
        by_cases hk : key x = k
        · subst hk
          simp
        · constructor
          · rintro (⟨h | h⟩ | h)
            · exact absurd h.symm hk
            · exact Or.inl h
            · exact Or.inr (Or.inr h)
          · rintro (h | h | h)
            · exact Or.inl (Or.inr h)
            · exact absurd h hk
            · exact Or.inr h

theorem rdGo_snoc {α : Type} (key : α → String) :
    ∀ (a : List α) (x : α) (seen : List String),
      rdGo key (a ++ [x]) seen
        = rdGo key a seen
          ++ (if key x ∈ rdSeen key a seen then [] else [x]) := by
  intro a
  induction a with
  | nil => intro x seen; simp [rdGo, rdSeen]
  | cons y ys ih =>
      intro x seen
      by_cases hy : key y ∈ seen
      · simp [rdGo, rdSeen, hy, ih]
      · simp [rdGo, rdSeen, hy, ih]

theorem rdGo_rev {α : Type} (key : α → String) :
    ∀ (l : List α) (seen : List String),
      (rdGo key l.reverse seen).reverse = keepLastSeen key l seen := by
  intro l
  induction l with
  | nil => intro seen; simp [rdGo, keepLastSeen]
  | cons x xs ih =>
      intro seen
      rw [List.reverse_cons, rdGo_snoc, List.reverse_append]
      have hmem : key x ∈ rdSeen key xs.reverse seen
          ↔ key x ∈ seen ∨ xs.any (fun y => key y == key x) = true := by
        rw [rdSeen_mem]
        simp [List.any_eq_true]
      by_cases hc : key x ∈ seen ∨ xs.any (fun y => key y == key x) = true
      · rw [if_pos (hmem.mpr hc)]
        simp only [List.reverse_nil, List.nil_append]
        rw [ih, keepLastSeen]
        rw [if_pos hc]
      · rw [if_neg (fun h => hc (hmem.mp h))]
        simp only [List.reverse_cons, List.reverse_nil, List.nil_append]
        rw [ih, keepLastSeen]
        rw [if_neg hc]
        rfl

theorem keepLastSeen_nilSeen {α : Type} (key : α → String) :
    ∀ l : List α, keepLastSeen key l [] = keepLast key l := by
  intro l
  induction l with
  | nil => rfl
  | cons x xs ih =>
      simp only [keepLastSeen, keepLast, List.not_mem_nil, false_or, ih]

theorem removeDupsBy_eq_keepLast {α : Type} (key : α → String) (l : List α) :
    removeDupsBy key l = keepLast key l := by
  unfold removeDupsBy
  rw [rdGo_rev, keepLastSeen_nilSeen]

theorem keepLast_cons {α : Type} (key : α → String) (x : α) (xs : List α) :
    keepLast key (x :: xs)
      = if xs.any (fun y => key y == key x) then keepLast key xs
        else x :: keepLast key xs := rfl

theorem keepLast_append_absorb {α : Type} (key : α → String) :
    ∀ (A B : List α),
      (∀ x ∈ A, B.any (fun y => key y == key x) = true) →
      keepLast key (A ++ B) = keepLast key B := by
  intro A
  induction A with
  | nil => intro B _; rfl
  | cons x A' ih =>
      intro B h
      have hx : B.any (fun y => key y == key x) = true :=
        h x (List.mem_cons_self x A')
      have hcond : (A' ++ B).any (fun y => key y == key x) = true := by
        rw [List.any_append, hx]
        simp
      rw [List.cons_append, keepLast_cons, if_pos hcond]
      exact ih B (fun z hz => h z (List.mem_cons_of_mem x hz))

theorem keepLast_of_nodup {α : Type} (key : α → String) :
    ∀ A : List α, (A.map key).Nodup → keepLast key A = A := by
  intro A
  induction A with
  | nil => intro _; rfl
  | cons x xs ih =>
      intro h
      rw [List.map_cons, List.nodup_cons] at h
      have hx : xs.any (fun y => key y == key x) = false := by
        rw [List.any_eq_false]
        intro y hy
        simp only [beq_iff_eq]
        intro hk
        exact h.1 (hk ▸ List.mem_map_of_mem key hy)
      rw [keepLast_cons, hx]
      simp [ih h.2]

/-- C9 counterexample.  The claim says `A + B` keeps the FIRST occurrence
of each `uid` and that `A + A` has the length of `A`.  The reversed
in-place deletion keeps the LAST occurrence instead: concatenating the
singleton lists `[x(uid=u, name="x")]` and `[y(uid=u, name="y")]` keeps
`y` (the later duplicate survives, with its field values), and for a
list `A` that itself contains two items of uid `u`, `A + A` has length
`1 ≠ 2 = |A|`. -/
theorem c9_dedup_counterexample :
    tlAdd [⟨"u", some "x", none, none, .vinstant 0, none, 0, none⟩]
        [⟨"u", some "y", none, none, .vinstant 0, none, 0, none⟩]
      = [⟨"u", some "y", none, none, .vinstant 0, none, 0, none⟩]
    ∧ (some "y" : Option String) ≠ some "x"
    ∧ (tlAdd
        [⟨"u", some "x", none, none, .vinstant 0, none, 0, none⟩,
         ⟨"u", some "y", none, none, .vinstant 0, none, 0, none⟩]
        [⟨"u", some "x", none, none, .vinstant 0, none, 0, none⟩,
         ⟨"u", some "y", none, none, .vinstant 0, none, 0, none⟩]).length = 1
    ∧ ([⟨"u", some "x", none, none, .vinstant 0, none, 0, none⟩,
        ⟨"u", some "y", none, none, .vinstant 0, none, 0, none⟩] :
        List Todo).length = 2
    ∧ (1 : Nat) ≠ 2 :=
  ⟨by decide, by decide, by decide, by decide, by decide⟩

/-- C9 (amended): `A + B` is the concatenation with every EARLIER
duplicate (same `uid`) removed — the last occurrence of each uid and its
field values survive, in the order of last occurrences; consequently
`A + A` equals `A` (and in particular has the same length) whenever `A`
itself contains no duplicate uids. -/
theorem c9_dedup_amended :
    (∀ A B : List Todo, tlAdd A B = keepLast (fun t => t.uid) (A ++ B))
    ∧ (∀ A : List Todo, (A.map (fun t => t.uid)).Nodup →
        tlAdd A A = A ∧ (tlAdd A A).length = A.length) := by
  constructor
  · intro A B
    exact removeDupsBy_eq_keepLast _ _
  · intro A h
    have habs : ∀ x ∈ A, A.any (fun y => y.uid == x.uid) = true := by
      intro x hx
      rw [List.any_eq_true]
      exact ⟨x, hx, by simp⟩
    have hAA : tlAdd A A = A := by
      unfold tlAdd
      rw [removeDupsBy_eq_keepLast,
        keepLast_append_absorb (fun t => t.uid) A A habs,
        keepLast_of_nodup (fun t => t.uid) A h]
    exact ⟨hAA, by rw [hAA]⟩

theorem c9_dedup_amended_witness :
    tlAdd [⟨"a", none, none, none, .vinstant 0, none, 0, none⟩,
           ⟨"b", none, none, none, .vinstant 0, none, 0, none⟩]
          [⟨"a", none, none, none, .vinstant 0, none, 0, none⟩,
           ⟨"b", none, none, none, .vinstant 0, none, 0, none⟩]
      = [⟨"a", none, none, none, .vinstant 0, none, 0, none⟩,
         ⟨"b", none, none, none, .vinstant 0, none, 0, none⟩] :=
  (c9_dedup_amended.2
    [⟨"a", none, none, none, .vinstant 0, none, 0, none⟩,
     ⟨"b", none, none, none, .vinstant 0, none, 0, none⟩] (by decide)).1

/-! ### Clone independence (`Todo.clone`, `Calendar.clone`)

`clone()` is `copy.copy(self)` — a field-for-field shallow copy, so a
reference-valued field of the clone points at the same object — followed
by re-binding `_unused` to a deep copy.  To make aliasing observable the
embedding adds an explicit store: `Todo.categoriesRef`/`unusedRef` index
into it, mirroring Python references. -/

/-- A container (`BEGIN`/`END` block): name plus retained content
lines. -/
structure Container' where
  name : String
  lines : List String
  deriving Repr, DecidableEq

/-- The mutable store: category-list cells and container cells. -/
structure Mem where
  cats : List (List String)
  conts : List Container'
  deriving Repr, DecidableEq

def emptyCont : Container' := ⟨"VTODO", []⟩

/-- Modelled from the spec: `Container.clone` (`src/ics/parse.py` is not
in the corpus).  The spec says clones are fully independent deep copies,
so cloning a container allocates a fresh cell holding an equal value and
returns its reference. -/
def contCloneAlloc (σ : Mem) (r : Nat) : Nat × Mem :=
  (σ.conts.length, { σ with conts := σ.conts ++ [σ.conts.getD r emptyCont] })

/-- `Todo.clone()`: `clone = copy.copy(self)` (shallow copy: the record
is copied, reference fields included), then
`clone._unused = clone._unused.clone()`. -/
def todoClone (σ : Mem) (t : Todo) : Todo × Mem :=
  let rσ := contCloneAlloc σ t.unusedRef
  ({ t with unusedRef := rσ.1 }, rσ.2)

/-- The observable value of `todo.categories` (dereferenced). -/
def obsCats (σ : Mem) (t : Todo) : Option (List String) :=
  t.categoriesRef.map (fun r => σ.cats.getD r [])

/-- The observable value of `todo._unused` (dereferenced). -/
def obsUnused (σ : Mem) (t : Todo) : Container' :=
  σ.conts.getD t.unusedRef emptyCont

/-- In-place `todo.categories.append(s)` through the reference. -/
def appendCat (σ : Mem) (t : Todo) (s : String) : Mem :=
  match t.categoriesRef with
  | some r => { σ with cats := σ.cats.set r (σ.cats.getD r [] ++ [s]) }
  | none => σ

/-- In-place append of a content line to `todo._unused`. -/
def appendUnusedLine (σ : Mem) (t : Todo) (line : String) : Mem :=
  let c := σ.conts.getD t.unusedRef emptyCont
  { σ with conts := σ.conts.set t.unusedRef (Container'.mk c.name (c.lines ++ [line])) }

/-- `Todo.__eq__`: identity, `uid` only. -/
def todoPyEq (a b : Todo) : Bool := a.uid == b.uid

theorem getD_set_ne {α : Type} (l : List α) (i j : Nat) (a d : α)
    (h : i ≠ j) : (l.set i a).getD j d = l.getD j d := by
  simp [List.getD_eq_getElem?_getD, List.getElem?_set_ne h]

/-- C10 counterexample.  The claim says no mutation of `clone(x)` —
including of mutable field values such as a Todo's categories sequence —
ever changes an observable field of `x`.  `copy.copy` shares the
categories list: for the todo `t0` with categories `["a"]`, appending
`"b"` through the clone changes `t0`'s observable categories to
`["a", "b"]`. -/
theorem c10_clone_counterexample :
    todoPyEq
      (todoClone ⟨[["a"]], [⟨"VTODO", []⟩]⟩
        ⟨"u", none, none, none, .vinstant 0, some 0, 0, none⟩).1
      ⟨"u", none, none, none, .vinstant 0, some 0, 0, none⟩ = true
    ∧ obsCats ⟨[["a"]], [⟨"VTODO", []⟩]⟩
        ⟨"u", none, none, none, .vinstant 0, some 0, 0, none⟩ = some ["a"]
    ∧ obsCats
        (appendCat
          (todoClone ⟨[["a"]], [⟨"VTODO", []⟩]⟩
            ⟨"u", none, none, none, .vinstant 0, some 0, 0, none⟩).2
          (todoClone ⟨[["a"]], [⟨"VTODO", []⟩]⟩
            ⟨"u", none, none, none, .vinstant 0, some 0, 0, none⟩).1
          "b")
        ⟨"u", none, none, none, .vinstant 0, some 0, 0, none⟩
        = some ["a", "b"]
    ∧ (some ["a", "b"] : Option (List String)) ≠ some ["a"] :=
  ⟨by decide, by decide, by decide, by decide⟩

/-- C10 (amended): `clone(x) == x` under uid-based identity equality,
the clone's `_unused` container is a fresh independent cell — cloning
leaves `x`'s observable `_unused` unchanged and mutating the clone's
`_unused` never changes `x` — but the clone is shallow otherwise: it
shares `x`'s categories reference, so in-place mutation of the
categories sequence through the clone is visible in `x`. -/
theorem c10_clone_amended :
    ∀ (σ : Mem) (t : Todo), t.unusedRef < σ.conts.length →
      todoPyEq (todoClone σ t).1 t = true
      ∧ (todoClone σ t).1.categoriesRef = t.categoriesRef
      ∧ obsUnused (todoClone σ t).2 t = obsUnused σ t
      ∧ (∀ line,
          obsUnused (appendUnusedLine (todoClone σ t).2 (todoClone σ t).1 line) t
            = obsUnused (todoClone σ t).2 t) := by
  intro σ t h
  refine ⟨by simp [todoPyEq, todoClone, contCloneAlloc], rfl, ?_, ?_⟩
  · simp only [obsUnused, todoClone, contCloneAlloc]
    exact List.getD_append _ _ _ _ h
  · intro line
    simp only [obsUnused, appendUnusedLine, todoClone, contCloneAlloc]
    have hne : σ.conts.length ≠ t.unusedRef := by omega
    exact getD_set_ne _ _ _ _ _ hne

theorem c10_clone_amended_witness :
    obsUnused
      (todoClone ⟨[["a"]], [⟨"VTODO", ["X-LINE:1"]⟩]⟩
        ⟨"u", none, none, none, .vinstant 0, some 0, 0, none⟩).2
      ⟨"u", none, none, none, .vinstant 0, some 0, 0, none⟩
      = obsUnused ⟨[["a"]], [⟨"VTODO", ["X-LINE:1"]⟩]⟩
          ⟨"u", none, none, none, .vinstant 0, some 0, 0, none⟩ :=
  (c10_clone_amended ⟨[["a"]], [⟨"VTODO", ["X-LINE:1"]⟩]⟩
    ⟨"u", none, none, none, .vinstant 0, some 0, 0, none⟩ (by decide)).2.2.1

/-! ### Calendar union (`Calendar.__add__` / `Calendar.__init__`) -/

/-- A dynamically typed element of a Python list fed to the Calendar
constructor: a text line, an `Event` (identified by uid), or a `Todo`
(identified by uid). -/
inductive PyObj where
  | pstr (s : String)
  | pev (uid : String)
  | ptd (uid : String)
  deriving Repr, DecidableEq

def pyUid : PyObj → String
  | .pstr s => s
  | .pev u => u
  | .ptd u => u

/-- The observable Calendar state: its event list, todo list and
creator.  (Scale/method/timezones play no role in the claims.) -/
structure Calendar where
  events : List PyObj
  todos : List PyObj
  creator : Option String
  deriving Repr, DecidableEq

/-- Modelled from the spec: `lines_to_container` (`src/ics/parse.py` is
not in the corpus).  The parser groups `BEGIN:X`/`END:X` pairs into
top-level containers; only textual `BEGIN` lines open a block, so a
sequence without one — in particular the empty sequence — yields no
containers.  Only the top-level container count is consumed by
`Calendar.__init__`'s single-calendar check (nesting is irrelevant
here and not modelled). -/
def linesToContainers (ls : List PyObj) : List Container' :=
  ls.filterMap (fun o =>
    match o with
    | .pstr s =>
        if s = "BEGIN:VCALENDAR" then some ⟨"VCALENDAR", []⟩ else none
    | _ => none)

/-- Modelled from the spec: `Component._populate` for Calendar
(`src/ics/component.py` is not in the corpus).  `PRODID` and `VERSION`
are required bindings, so their absence is a schema error; nested
components are not modelled (no claim exercises a successful populate). -/
def populateCalendar (c : Container') : PyRes Calendar :=
  match c.lines.find? (fun s => s.startsWith "PRODID:"),
        c.lines.find? (fun s => s.startsWith "VERSION:") with
  | some p, some _ => .ok ⟨[], [], some (p.drop 7)⟩
  | _, _ => .error .schemaError

/-- `Calendar.__init__(imports, events, todos, creator)`: when `imports`
is given (any iterable that is not a string is treated as a line
sequence) the other arguments are ignored, the input is parsed and the
single-calendar check `len(container) != 1` raises
`NotImplementedError`; otherwise the given lists (defaulting to empty)
are stored. -/
def calendarInit (imports : Option (List PyObj))
    (events todos : Option (List PyObj)) (creator : Option String) :
    PyRes Calendar :=
  match imports with
  | some ls =>
      match linesToContainers ls with
      | [c] => populateCalendar c
      | _ => .error .notImplementedError
  | none => .ok ⟨events.getD [], todos.getD [], creator⟩

/-- Modelled from the spec: `EventList.__add__` (`src/ics/eventlist.py`
is not in the corpus); the spec specifies deduplicating concatenation by
identity, later duplicates discarded, first occurrence preserved. -/
def eventListAdd (A B : List PyObj) : List PyObj :=
  rdGo pyUid (A ++ B) []

/-- `Calendar.__add__`: merges the two event lists and the two todo
lists, then calls `Calendar(events, todos)` — POSITIONALLY, so the
merged event list binds to the `imports` parameter and the merged todo
list to the `events` parameter. -/
def calendarAdd (c1 c2 : Calendar) : PyRes Calendar :=
  let evs := eventListAdd c1.events c2.events
  let tds := removeDupsBy pyUid (c1.todos ++ c2.todos)
  calendarInit (some evs) (some tds) none none

/-- C5 (code bug).  The claim — and the constructor docstring's intent —
is that `c1 + c2` returns a new Calendar with the deduplicated
concatenation of the event and todo lists.  `Calendar.__add__` passes
them positionally, so the event list lands in `imports`; `__init__` then
tries to parse it as text and, for two empty calendars, raises
`NotImplementedError` (no `VCALENDAR` container found) instead of
returning the union.  The second conjunct shows the keyword path the
code bypasses would have stored the lists. -/
theorem c5_calendar_add_code_bug :
    calendarAdd ⟨[], [], none⟩ ⟨[], [], none⟩ = .error .notImplementedError
    ∧ calendarInit none (some [.pev "e1"]) (some [.ptd "t1"]) none
        = .ok ⟨[.pev "e1"], [.ptd "t1"], none⟩ :=
  ⟨by decide, by decide⟩

end ICS
